import Mathlib

/-!
Shallow embedding of followorder.py (class SmartWalletTracker) and proofs of
the frozen claims about it. Python dicts are modelled as insertion-ordered
association lists of string keys to JSON-like values; exceptions are modelled
with Except and explicit outcome types; the asynchronous monitor loop is
modelled as a function over a finite prefix of per-cycle listing outcomes.
-/

namespace Followorder

/-- JSON-like values: the value universe of the script (dict payloads from the
Jupiter token endpoint, the fields of token_info and transaction_data). The
grammar the script manipulates uses strings, naturals (sol_transfer is the
literal 0), arrays and objects. -/
inductive JValue where
  | jstr : String → JValue
  | jnat : Nat → JValue
  | jarr : List JValue → JValue
  | jobj : List (String × JValue) → JValue

/-- A Python dict as an insertion-ordered association list. -/
def Dict := List (String × JValue)

/-- Python d[k] read access restricted to lookup: first binding of the key. -/
def dictLookup (d : List (String × JValue)) (k : String) : Option JValue :=
  match d with
  | [] => none
  | kv :: rest => if kv.1 = k then some kv.2 else dictLookup rest k

/-- Python dict.update(upd): existing keys keep their position and take the
new value, keys only in upd are appended in their order. -/
def dictUpdate (d upd : List (String × JValue)) : List (String × JValue) :=
  (d.map (fun kv =>
    match dictLookup upd kv.1 with
    | some v => (kv.1, v)
    | none => kv))
  ++ upd.filter (fun kv => (dictLookup d kv.1).isNone)

/-- Python truthiness of a JSON value: empty string, zero and empty
containers are falsy, everything else is truthy. -/
def jtruthy : JValue → Bool
  | JValue.jstr s => !s.isEmpty
  | JValue.jnat n => n != 0
  | JValue.jarr l => !l.isEmpty
  | JValue.jobj l => !l.isEmpty

/-- Substring test on character lists: some suffix of the haystack starts
with the needle. -/
def listHasSub (needle : List Char) : List Char → Bool
  | [] => needle.isEmpty
  | c :: rest => needle.isPrefixOf (c :: rest) || listHasSub needle rest

/-- The Python expression needle in hay on strings. -/
def strContains (hay needle : String) : Bool :=
  listHasSub needle.data hay.data

/-! Timestamp derivation. The script computes
datetime.fromtimestamp(block_time).strftime of the fixed profile
year-month-day hour:minute:second. The conversion below implements the
proleptic Gregorian calendar at a fixed zero utc offset (the ambient local
timezone of the deployment is one fixed offset; modelling it as zero loses
no generality for the properties proved here, which never compare two
different offsets). -/

/-- Civil date from days since the epoch 1970-01-01 (standard
era-of-400-years computation over the proleptic Gregorian calendar). -/
def civilFromDays (z0 : Int) : Int × Nat × Nat :=
  let z := z0 + 719468
  let era := Int.fdiv z 146097
  let doe := (z - era * 146097).toNat
  let yoe := (doe - doe / 1460 + doe / 36524 - doe / 146096) / 365
  let y := (yoe : Int) + era * 400
  let doy := doe - (365 * yoe + yoe / 4 - yoe / 100)
  let mp := (5 * doy + 2) / 153
  let d := doy - (153 * mp + 2) / 5 + 1
  let m := if mp < 10 then mp + 3 else mp - 9
  (if m ≤ 2 then y + 1 else y, m, d)

/-- Two-digit zero padding, as the %m %d %H %M %S profile prints. -/
def pad2 (n : Nat) : String := if n < 10 then "0" ++ Nat.repr n else Nat.repr n

/-- Four-digit zero padding for the year field %Y. -/
def pad4 (n : Nat) : String :=
  if n < 10 then "000" ++ Nat.repr n
  else if n < 100 then "00" ++ Nat.repr n
  else if n < 1000 then "0" ++ Nat.repr n
  else Nat.repr n

/-- The timestamp string the Analyzer derives from an epoch-seconds block
time: a pure function of the block time. -/
def formatTimestamp (t : Int) : String :=
  let days := Int.fdiv t 86400
  let sod := (t - days * 86400).toNat
  let c := civilFromDays days
  let ystr := if 0 ≤ c.1 then pad4 c.1.toNat else "-" ++ Nat.repr (-c.1).toNat
  ystr ++ "-" ++ pad2 c.2.1 ++ "-" ++ pad2 c.2.2 ++ " " ++
    pad2 (sod / 3600) ++ ":" ++ pad2 (sod % 3600 / 60) ++ ":" ++ pad2 (sod % 60)

/-! The Enrichment Client Adapter: get_token_info. -/

/-- Outcome of the one outbound HTTP interaction of get_token_info: the
request raises (network failure), or a response arrives with a status code
and a body whose JSON decoding either succeeds or raises. -/
inductive HttpOutcome where
  | netFailure : String → HttpOutcome
  | response : Nat → Except String JValue → HttpOutcome

/-- get_token_info: returns the decoded JSON body of a 200 response and
None in every other case; the try block converts every raise (network
failure, body decode failure) to None after logging. Total by construction:
no outcome escapes as an exception. -/
def get_token_info (outcome : HttpOutcome) : Option JValue :=
  match outcome with
  | HttpOutcome.netFailure _ => none
  | HttpOutcome.response status body =>
    if status = 200 then
      match body with
      | Except.ok j => some j
      | Except.error _ => none
    else none

/-! The Transfer Parser: parse_transfer_log, and the Transaction Analyzer:
analyze_transaction. -/

/-- The dict the script builds in transaction_data: timestamp, signature,
token_transfers and sol_transfer, in that insertion order. -/
structure TransactionData where
  timestamp : String
  signature : String
  token_transfers : List (List (String × JValue))
  sol_transfer : Nat

/-- The placeholder token_info dict the parser builds for every line that
contains the substring Transfer: literal placeholder strings for
token_address and amount, and the literal placeholder in/out for direction
(lines 79 to 83 of the source). -/
def placeholderTransfer : List (String × JValue) :=
  [("token_address", JValue.jstr "从日志中解析"),
   ("amount", JValue.jstr "从日志中解析"),
   ("direction", JValue.jstr "in/out")]

/-- Body of the try block of parse_transfer_log. The enrichment oracle maps
a token address to the result of the awaited get_token_info call. A truthy
token_details merges into token_info via dict.update when it is a mapping
and raises a TypeError otherwise (modelled as the error branch); a falsy or
absent token_details leaves token_info as built. The new transfer is
appended to token_transfers as the last step, so an error leaves
transaction_data unchanged. -/
def parseTransferBody (enrich : String → Option JValue) (log : String)
    (data : TransactionData) : Except String TransactionData :=
  if strContains log "Transfer" then
    let token_info := placeholderTransfer
    match enrich "从日志中解析" with
    | some td =>
      if jtruthy td then
        match td with
        | JValue.jobj kvs =>
          Except.ok { data with
            token_transfers := data.token_transfers ++ [dictUpdate token_info kvs] }
        | _ => Except.error "TypeError: update needs a mapping"
      else Except.ok { data with token_transfers := data.token_transfers ++ [token_info] }
    | none => Except.ok { data with token_transfers := data.token_transfers ++ [token_info] }
  else Except.ok data

/-- parse_transfer_log: the try body with every raise caught and logged,
leaving transaction_data as it was. -/
def parse_transfer_log (enrich : String → Option JValue) (log : String)
    (data : TransactionData) : TransactionData :=
  match parseTransferBody enrich log data with
  | Except.ok d => d
  | Except.error _ => data

/-- One iteration of the log loop of analyze_transaction: lines containing
the substring Transfer go through the parser, all other lines are skipped. -/
def processLog (enrich : String → Option JValue) (data : TransactionData)
    (log : String) : TransactionData :=
  if strContains log "Transfer" then parse_transfer_log enrich log data else data

/-- The parts of a fetched transaction the analyzer reads: block_time (absent
models a null block time, whose datetime conversion raises) and the log
message lines (absent models a null meta, whose attribute access raises). -/
structure TxValue where
  block_time : Option Int
  log_messages : Option (List String)

/-- Outcome of the get_transaction RPC call: the call raises, or it returns
a response whose value field is the transaction or nothing. -/
inductive FetchResult where
  | fetchError : String → FetchResult
  | fetched : Option TxValue → FetchResult

/-- analyze_transaction: fetch the transaction, return None when the fetch
raises or the response has no value; build transaction_data with the derived
timestamp, the signature, an empty transfer list and sol_transfer zero; run
the parser over every log line containing the substring Transfer; any raise
inside the try (including a null block time or null meta) is caught, logged
and converted to None. -/
def analyze_transaction (enrich : String → Option JValue) (fetch : FetchResult)
    (tx_sig : String) : Option TransactionData :=
  match fetch with
  | FetchResult.fetchError _ => none
  | FetchResult.fetched none => none
  | FetchResult.fetched (some tv) =>
    match tv.block_time with
    | none => none
    | some bt =>
      match tv.log_messages with
      | none => none
      | some logs =>
        some (logs.foldl (processLog enrich)
          { timestamp := formatTimestamp bt, signature := tx_sig,
            token_transfers := [], sol_transfer := 0 })

/-! The Wallet Monitor: monitor_wallet. -/

/-- Outcome of one get_signatures_for_address call: the call (or the pubkey
construction before it) raises, or it returns a list of signatures. -/
inductive ListingResult where
  | listErr : String → ListingResult
  | listed : List String → ListingResult

/-- The body of one polling cycle: for each listed signature not yet in the
processed set, run the analyzer, forward the result to process_transaction
when it is truthy and its token_transfers list is truthy, and add the
signature to the processed set regardless of the outcome. Returns the new
processed set, the signatures handed to the analyzer this cycle, and the
events forwarded to the sink this cycle. -/
def runCycle (enrich : String → Option JValue) (fetch : String → FetchResult) :
    List String → List String → List String × List String × List TransactionData
  | [], seen => (seen, [], [])
  | s :: rest, seen =>
    if s ∈ seen then runCycle enrich fetch rest seen
    else
      let tx := analyze_transaction enrich (fetch s) s
      let fwdOne : List TransactionData :=
        match tx with
        | some d => if d.token_transfers.isEmpty then [] else [d]
        | none => []
      let r := runCycle enrich fetch rest (seen ++ [s])
      (r.1, s :: r.2.1, fwdOne ++ r.2.2)

/-- monitor_wallet over a finite prefix of cycle listing outcomes. The try
block wraps the whole while loop, so a raise during listing escapes the
loop, is logged once at the top level, and the coroutine returns: no later
cycle runs. Returns the final processed set, the per-cycle lists of
signatures handed to the analyzer, and whether the monitor terminated by
error before exhausting the given cycles. -/
def monitorRun (enrich : String → Option JValue) (fetch : String → FetchResult) :
    List ListingResult → List String → List String × List (List String) × Bool
  | [], seen => (seen, [], false)
  | ListingResult.listErr _ :: _, seen => (seen, [], true)
  | ListingResult.listed sigs :: restL, seen =>
    let c := runCycle enrich fetch sigs seen
    let m := monitorRun enrich fetch restL c.1
    (m.1, c.2.1 :: m.2.1, m.2.2)

/-- Whether a cycle outcome is a listing failure. -/
def isListErr : ListingResult → Bool
  | ListingResult.listErr _ => true
  | ListingResult.listed _ => false

/-! Serialization of a finished event to the log format. process_transaction
logs json.dumps of transaction_data with indent 2: keys in insertion order,
items separated by a comma, a newline and two spaces of indentation per
nesting level, and a colon plus space between key and value. Strings are
emitted between double quotes with backslash and double quote escaped (the
model emits non-ascii characters verbatim, the ensure_ascii equal False
variant, which the JSON grammar accepts equally). -/

/-- Newline followed by the two-spaces-per-level indentation of indent 2. -/
def nlInd (lvl : Nat) : List Char := '\n' :: List.replicate (2 * lvl) ' '

/-- Escape backslash and double quote inside a serialized string body. -/
def escapeChars : List Char → List Char
  | [] => []
  | c :: rest =>
    if c = '"' ∨ c = '\\' then '\\' :: c :: escapeChars rest
    else c :: escapeChars rest

/-- A serialized string: quote, escaped body, quote. -/
def serStr (s : String) : List Char := '"' :: (escapeChars s.data ++ ['"'])

/-- The decimal digit character of a value below ten. -/
def digitChar : Nat → Char
  | 0 => '0' | 1 => '1' | 2 => '2' | 3 => '3' | 4 => '4'
  | 5 => '5' | 6 => '6' | 7 => '7' | 8 => '8' | _ => '9'

/-- Decimal digits of a natural number, most significant first; the fuel
argument only makes the recursion structural and any fuel above the number
itself is enough. -/
def natDigitsAux : Nat → Nat → List Char
  | 0, _ => []
  | fuel + 1, n =>
    if n < 10 then [digitChar n]
    else natDigitsAux fuel (n / 10) ++ [digitChar (n % 10)]

/-- Decimal digits of a natural number, most significant first. -/
def natDigits (n : Nat) : List Char := natDigitsAux (n + 1) n

mutual

/-- Serialize one value at an indentation level, as json.dumps with
indent 2 renders it. -/
def serVal : Nat → JValue → List Char
  | _, JValue.jstr s => serStr s
  | _, JValue.jnat n => natDigits n
  | _, JValue.jarr [] => ['[', ']']
  | lvl, JValue.jarr (x :: xs) =>
    '[' :: (nlInd (lvl + 1) ++ serVal (lvl + 1) x ++ serArrRest (lvl + 1) xs ++
      nlInd lvl ++ [']'])
  | _, JValue.jobj [] => ['\x7b', '\x7d']
  | lvl, JValue.jobj ((k, v) :: kvs) =>
    '\x7b' :: (nlInd (lvl + 1) ++ serStr k ++ ':' :: ' ' :: serVal (lvl + 1) v ++
      serObjRest (lvl + 1) kvs ++ nlInd lvl ++ ['\x7d'])
termination_by _ v => sizeOf v
decreasing_by all_goals (simp_wf; try omega)

/-- Serialize the array items after the first: comma, newline plus
indentation, item. -/
def serArrRest : Nat → List JValue → List Char
  | _, [] => []
  | lvl, x :: xs => ',' :: (nlInd lvl ++ serVal lvl x ++ serArrRest lvl xs)
termination_by _ xs => sizeOf xs
decreasing_by all_goals (simp_wf; try omega)

/-- Serialize the object members after the first: comma, newline plus
indentation, key, colon, space, value. -/
def serObjRest : Nat → List (String × JValue) → List Char
  | _, [] => []
  | lvl, (k, v) :: kvs =>
    ',' :: (nlInd lvl ++ serStr k ++ ':' :: ' ' :: serVal lvl v ++ serObjRest lvl kvs)
termination_by _ kvs => sizeOf kvs
decreasing_by all_goals (simp_wf; try omega)

end

/-! A JSON parser, to state that re-parsing the serialized log line as JSON
reproduces the event. Whitespace between tokens is skipped; strings, digit
runs, arrays and objects of the grammar above are recognized. -/

/-- Space and newline, the whitespace characters the serializer emits. -/
def isWs (c : Char) : Bool := decide (c = ' ' ∨ c = '\n')

/-- Drop leading whitespace. -/
def skipWs : List Char → List Char
  | [] => []
  | c :: rest => if isWs c then skipWs rest else c :: rest

/-- Whether a character is a decimal digit. -/
def isDig (c : Char) : Bool := decide (48 ≤ c.toNat ∧ c.toNat ≤ 57)

/-- Numeric value of a digit character. -/
def digVal (c : Char) : Nat := c.toNat - 48

/-- Parse the body of a string after the opening quote, unescaping
backslash-escaped characters, up to the closing quote. -/
def parseStrAux : List Char → Option (List Char × List Char)
  | [] => none
  | c :: rest =>
    if c = '"' then some ([], rest)
    else if c = '\\' then
      match rest with
      | [] => none
      | d :: rest2 =>
        match parseStrAux rest2 with
        | some p => some (d :: p.1, p.2)
        | none => none
    else
      match parseStrAux rest with
      | some p => some (c :: p.1, p.2)
      | none => none

/-- Consume a maximal run of digits, folding them onto an accumulator. -/
def parseDigitsAux : List Char → Nat → Nat × List Char
  | [], acc => (acc, [])
  | c :: rest, acc =>
    if isDig c then parseDigitsAux rest (acc * 10 + digVal c) else (acc, c :: rest)

mutual

/-- Parse one JSON value; the fuel bounds recursion depth and any fuel
above the input length is enough. -/
def parseVal : Nat → List Char → Option (JValue × List Char)
  | 0, _ => none
  | fuel + 1, input =>
    match skipWs input with
    | [] => none
    | c :: rest =>
      if c = '"' then
        match parseStrAux rest with
        | some p => some (JValue.jstr (String.mk p.1), p.2)
        | none => none
      else if c = '[' then
        match skipWs rest with
        | [] => none
        | d :: r2 =>
          if d = ']' then some (JValue.jarr [], r2)
          else
            match parseArrItems fuel (d :: r2) with
            | some p => some (JValue.jarr p.1, p.2)
            | none => none
      else if c = '\x7b' then
        match skipWs rest with
        | [] => none
        | d :: r2 =>
          if d = '\x7d' then some (JValue.jobj [], r2)
          else
            match parseObjItems fuel (d :: r2) with
            | some p => some (JValue.jobj p.1, p.2)
            | none => none
      else if isDig c then
        let p := parseDigitsAux (c :: rest) 0
        some (JValue.jnat p.1, p.2)
      else none

/-- Parse one or more comma-separated array items up to the closing
bracket. -/
def parseArrItems : Nat → List Char → Option (List JValue × List Char)
  | 0, _ => none
  | fuel + 1, input =>
    match parseVal fuel input with
    | none => none
    | some p =>
      match skipWs p.2 with
      | [] => none
      | d :: r2 =>
        if d = ',' then
          match parseArrItems fuel r2 with
          | some q => some (p.1 :: q.1, q.2)
          | none => none
        else if d = ']' then some ([p.1], r2)
        else none

/-- Parse one or more comma-separated key-value members up to the closing
brace. -/
def parseObjItems : Nat → List Char → Option (List (String × JValue) × List Char)
  | 0, _ => none
  | fuel + 1, input =>
    match skipWs input with
    | [] => none
    | c :: rest =>
      if c = '"' then
        match parseStrAux rest with
        | none => none
        | some kp =>
          match skipWs kp.2 with
          | [] => none
          | d :: r2 =>
            if d = ':' then
              match parseVal fuel r2 with
              | none => none
              | some vp =>
                match skipWs vp.2 with
                | [] => none
                | d2 :: r4 =>
                  if d2 = ',' then
                    match parseObjItems fuel r4 with
                    | some q => some ((String.mk kp.1, vp.1) :: q.1, q.2)
                    | none => none
                  else if d2 = '\x7d' then some ([(String.mk kp.1, vp.1)], r4)
                  else none
            else none
      else none

end

/-- The JSON value json.dumps receives for a transaction_data dict: its four
keys in insertion order, the transfers as an array of objects. -/
def eventToJson (d : TransactionData) : JValue :=
  JValue.jobj
    [("timestamp", JValue.jstr d.timestamp),
     ("signature", JValue.jstr d.signature),
     ("token_transfers", JValue.jarr (d.token_transfers.map JValue.jobj)),
     ("sol_transfer", JValue.jnat d.sol_transfer)]

/-- The serialized log payload for one event. -/
def serializeEvent (d : TransactionData) : String :=
  String.mk (serVal 0 (eventToJson d))

/-- Parse a complete JSON document: one value and nothing but trailing
nothingness after it. -/
def parseJson (s : String) : Option JValue :=
  match parseVal (s.length + 1) s.data with
  | some (v, []) => some v
  | _ => none

/-- Read every element of a parsed array back as an object. -/
def asObjs : List JValue → Option (List (List (String × JValue)))
  | [] => some []
  | JValue.jobj kvs :: rest =>
    match asObjs rest with
    | some t => some (kvs :: t)
    | none => none
  | _ => none

/-- Extract signature, timestamp and transfer list from a re-parsed event. -/
def decodeEvent : JValue → Option (String × String × List (List (String × JValue)))
  | JValue.jobj kvs =>
    match dictLookup kvs "timestamp", dictLookup kvs "signature",
        dictLookup kvs "token_transfers" with
    | some (JValue.jstr ts), some (JValue.jstr sg), some (JValue.jarr trs) =>
      match asObjs trs with
      | some ds => some (ts, sg, ds)
      | none => none
    | _, _, _ => none
  | _ => none

/-! Concrete oracles used by the counterexamples and witnesses. -/

/-- Enrichment oracle that always reports unknown. -/
def noEnrich : String → Option JValue := fun _ => none

/-- Enrichment oracle returning a truthy non-mapping value, on which the
update call of the parser raises. -/
def strEnrich : String → Option JValue := fun _ => some (JValue.jstr "x")

/-- Fetch oracle on which every get_transaction call raises. -/
def errFetch : String → FetchResult := fun _ => FetchResult.fetchError "rpc"

/-- Fetch oracle returning a confirmed transaction with one transfer log
line. -/
def oneTransferFetch : String → FetchResult :=
  fun _ => FetchResult.fetched (some { block_time := some 0, log_messages := some ["Transfer"] })

/-- Fetch oracle returning a confirmed transaction with no transfer log
line. -/
def quietFetch : String → FetchResult :=
  fun _ => FetchResult.fetched (some { block_time := some 0, log_messages := some ["hello"] })

/-- Lists of whitespace characters only. -/
def wsOnly (l : List Char) : Prop := ∀ c ∈ l, isWs c = true

/-- Lists that do not start with a digit, so that a digit run right before
them stops exactly at their head. -/
def headNotDig : List Char → Prop
  | [] => True
  | c :: _ => isDig c = false

/-! Helper lemmas about the parser, the analyzer and the monitor loop. -/

/-- The parser touches only token_transfers: timestamp, signature and
sol_transfer of transaction_data are left unchanged. -/
theorem parse_transfer_log_frame (e : String → Option JValue) (log : String)
    (d : TransactionData) :
    (parse_transfer_log e log d).timestamp = d.timestamp ∧
    (parse_transfer_log e log d).signature = d.signature ∧
    (parse_transfer_log e log d).sol_transfer = d.sol_transfer := by
  unfold parse_transfer_log
  split
  next d2 heq =>
    unfold parseTransferBody at heq
    repeat' split at heq
    all_goals first
      | (injection heq with h2; subst h2; exact ⟨rfl, rfl, rfl⟩)
      | exact Except.noConfusion heq
  next m heq => exact ⟨rfl, rfl, rfl⟩

/-- One iteration of the log loop preserves the frame fields. -/
theorem processLog_frame (e : String → Option JValue) (d : TransactionData)
    (log : String) :
    (processLog e d log).timestamp = d.timestamp ∧
    (processLog e d log).signature = d.signature ∧
    (processLog e d log).sol_transfer = d.sol_transfer := by
  unfold processLog
  by_cases h : strContains log "Transfer"
  · simp only [h, if_true]
    exact parse_transfer_log_frame e log d
  · simp [h]

/-- The whole log loop preserves the frame fields. -/
theorem foldl_processLog_frame (e : String → Option JValue) :
    ∀ (logs : List String) (d : TransactionData),
      ((logs.foldl (processLog e) d).timestamp = d.timestamp) ∧
      ((logs.foldl (processLog e) d).signature = d.signature) ∧
      ((logs.foldl (processLog e) d).sol_transfer = d.sol_transfer) := by
  intro logs
  induction logs with
  | nil => intro d; exact ⟨rfl, rfl, rfl⟩
  | cons l ls ih =>
    intro d
    simp only [List.foldl_cons]
    obtain ⟨h1, h2, h3⟩ := ih (processLog e d l)
    obtain ⟨g1, g2, g3⟩ := processLog_frame e d l
    exact ⟨h1.trans g1, h2.trans g2, h3.trans g3⟩

/-- After a cycle, the processed set is the old set with exactly the newly
analyzed signatures appended in order. -/
theorem runCycle_seen_eq (e : String → Option JValue) (f : String → FetchResult) :
    ∀ (sigs seen : List String),
      (runCycle e f sigs seen).1 = seen ++ (runCycle e f sigs seen).2.1 := by
  intro sigs
  induction sigs with
  | nil => intro seen; simp [runCycle]
  | cons a rest ih =>
    intro seen
    by_cases h : a ∈ seen
    · simp only [runCycle, if_pos h]
      exact ih seen
    · simp only [runCycle, if_neg h]
      rw [ih (seen ++ [a])]
      simp

/-- The signatures a cycle hands to the analyzer were not yet processed,
and no signature is handed over twice within the cycle. -/
theorem runCycle_analyzed_spec (e : String → Option JValue) (f : String → FetchResult) :
    ∀ (sigs seen : List String),
      (∀ s ∈ (runCycle e f sigs seen).2.1, s ∉ seen) ∧
      (runCycle e f sigs seen).2.1.Nodup := by
  intro sigs
  induction sigs with
  | nil => intro seen; simp [runCycle]
  | cons a rest ih =>
    intro seen
    by_cases h : a ∈ seen
    · simp only [runCycle, if_pos h]
      exact ih seen
    · simp only [runCycle, if_neg h]
      obtain ⟨hfresh, hnodup⟩ := ih (seen ++ [a])
      constructor
      · intro s hs
        rcases List.mem_cons.mp hs with rfl | hs2
        · exact h
        · intro hseen
          exact hfresh s hs2 (List.mem_append_left _ hseen)
      · refine List.nodup_cons.mpr ⟨?_, hnodup⟩
        intro ha
        exact hfresh a ha (List.mem_append_right _ (List.mem_singleton.mpr rfl))

/-- Across a whole monitor run, every signature reaches the analyzer at most
once and never when it was already in the processed set. -/
theorem monitor_join_spec (e : String → Option JValue) (f : String → FetchResult) :
    ∀ (L : List ListingResult) (seen0 : List String),
      ((monitorRun e f L seen0).2.1).flatten.Nodup ∧
      ∀ s ∈ ((monitorRun e f L seen0).2.1).flatten, s ∉ seen0 := by
  intro L
  induction L with
  | nil => intro seen0; simp [monitorRun]
  | cons c rest ih =>
    intro seen0
    cases c with
    | listErr m => simp [monitorRun]
    | listed sigs =>
      simp only [monitorRun, List.flatten_cons]
      obtain ⟨hfresh, hnodup⟩ := runCycle_analyzed_spec e f sigs seen0
      obtain ⟨ihnodup, ihfresh⟩ := ih ((runCycle e f sigs seen0).1)
      constructor
      · refine List.nodup_append.mpr ⟨hnodup, ihnodup, ?_⟩
        intro s hs1 hs2
        have hnot := ihfresh s hs2
        rw [runCycle_seen_eq] at hnot
        exact hnot (List.mem_append_right _ hs1)
      · intro s hs
        rcases List.mem_append.mp hs with h1 | h2
        · exact hfresh s h1
        · have hnot := ihfresh s h2
          rw [runCycle_seen_eq] at hnot
          intro hseen
          exact hnot (List.mem_append_left _ hseen)

/-- Every event a cycle forwards to process_transaction has a nonempty
transfer list. -/
theorem runCycle_fwd_nonempty (e : String → Option JValue) (f : String → FetchResult) :
    ∀ (sigs seen : List String),
      ((runCycle e f sigs seen).2.2.all (fun d => !d.token_transfers.isEmpty)) = true := by
  intro sigs
  induction sigs with
  | nil => intro seen; simp [runCycle]
  | cons a rest ih =>
    intro seen
    by_cases h : a ∈ seen
    · simp only [runCycle, if_pos h]
      exact ih seen
    · simp only [runCycle, if_neg h]
      rw [List.all_append, Bool.and_eq_true]
      refine ⟨?_, ih (seen ++ [a])⟩
      cases analyze_transaction e (f a) a with
      | none => simp
      | some d =>
        by_cases hE : d.token_transfers.isEmpty
        · simp [hE]
        · simp [hE]

/-! The claims. -/

/-- C1: once one Wallet Monitor cycle has observed a signature (marking it
seen regardless of the analysis outcome), no later cycle of the run hands
that signature to the Transaction Analyzer again: over any finite run, the
concatenation of the per-cycle analyzer inputs has no duplicate, and no
analyzer input was in the initial processed set. -/
theorem claim1_dedup_idempotence (e : String → Option JValue)
    (f : String → FetchResult) (L : List ListingResult) (seen0 : List String) :
    ((monitorRun e f L seen0).2.1).flatten.Nodup ∧
    ∀ s ∈ ((monitorRun e f L seen0).2.1).flatten, s ∉ seen0 :=
  monitor_join_spec e f L seen0

/-- C1 witness: a run whose first cycle lists a signature twice and whose
second cycle lists it again still hands it to the analyzer at most once. -/
theorem claim1_witness :
    ((monitorRun noEnrich oneTransferFetch
      [ListingResult.listed ["s", "s"], ListingResult.listed ["s"]] []).2.1).flatten.Nodup ∧
    ∀ s ∈ ((monitorRun noEnrich oneTransferFetch
      [ListingResult.listed ["s", "s"], ListingResult.listed ["s"]] []).2.1).flatten,
      s ∉ ([] : List String) :=
  claim1_dedup_idempotence noEnrich oneTransferFetch
    [ListingResult.listed ["s", "s"], ListingResult.listed ["s"]] []

/-- C2 counterexample: on a fetched, confirmed transaction whose logs parse
to zero transfers, analyze_transaction does not return nothing: it returns
an event with an empty transfer list. -/
theorem claim2_counterexample :
    analyze_transaction noEnrich (quietFetch "sig0") "sig0" =
      some { timestamp := formatTimestamp 0, signature := "sig0",
             token_transfers := [], sol_transfer := 0 } := rfl

/-- C2 amended: the Transaction Analyzer returns nothing when the fetch
raises or the response has no value; on zero parsed transfers it returns an
event with an empty transfer list, and the Wallet Monitor forwards no such
event to the Event Sink (every forwarded event has a nonempty transfer
list). -/
theorem claim2_analyzer_returns (e0 : String → Option JValue) :
    (∀ m s, analyze_transaction e0 (FetchResult.fetchError m) s = none) ∧
    (∀ s, analyze_transaction e0 (FetchResult.fetched none) s = none) ∧
    (∀ (f : String → FetchResult) (sigs seen : List String),
      ((runCycle e0 f sigs seen).2.2.all (fun d => !d.token_transfers.isEmpty)) = true) :=
  ⟨fun _ _ => rfl, fun _ => rfl, fun f sigs seen => runCycle_fwd_nonempty e0 f sigs seen⟩

/-- C3 counterexample: a single listing failure in the first cycle ends the
monitor (termination flag set) and the following cycle, which would list a
fresh signature, never runs and nothing is ever analyzed — the loop does
not continue to the next cycle. -/
theorem claim3_counterexample :
    (monitorRun noEnrich oneTransferFetch
      [ListingResult.listErr "boom", ListingResult.listed ["s1"]] []).2.2 = true ∧
    (monitorRun noEnrich oneTransferFetch
      [ListingResult.listErr "boom", ListingResult.listed ["s1"]] []).2.1 = [] :=
  ⟨rfl, rfl⟩

/-- C3 amended: errors inside the analysis of one transaction are contained
(the cycle and the loop continue), but an error that escapes a cycle
(listing failure) is caught only by the top-level guard around the whole
loop: the monitor terminates exactly when some listing fails, and the
cycles executed are exactly those before the first listing failure. -/
theorem claim3_cycle_error_terminates (e : String → Option JValue)
    (f : String → FetchResult) :
    ∀ (L : List ListingResult) (seen : List String),
      (monitorRun e f L seen).2.2 = L.any isListErr ∧
      (monitorRun e f L seen).2.1.length =
        (L.takeWhile (fun c => !isListErr c)).length := by
  intro L
  induction L with
  | nil => intro seen; simp [monitorRun]
  | cons c rest ih =>
    intro seen
    cases c with
    | listErr m => simp [monitorRun, isListErr, List.takeWhile]
    | listed sigs =>
      obtain ⟨ih1, ih2⟩ := ih ((runCycle e f sigs seen).1)
      simp [monitorRun, isListErr, List.takeWhile, ih1, ih2]

/-- C4 counterexample: the transfer record the parser creates for a line
containing Transfer has the literal placeholder string in/out as its
direction, which is neither in nor out, and a non-numeric placeholder
string as its amount. -/
theorem claim4_counterexample :
    (parse_transfer_log noEnrich "Transfer"
      { timestamp := "t", signature := "s", token_transfers := [],
        sol_transfer := 0 }).token_transfers = [placeholderTransfer] ∧
    dictLookup placeholderTransfer "direction" = some (JValue.jstr "in/out") ∧
    ("in/out" : String) ≠ "in" ∧ ("in/out" : String) ≠ "out" ∧
    dictLookup placeholderTransfer "amount" = some (JValue.jstr "从日志中解析") :=
  ⟨rfl, rfl, by decide, by decide, rfl⟩

/-- C4 amended: every TokenTransfer the Transfer Parser creates (absent
enrichment overwriting) is the fixed placeholder record: its amount is the
placeholder string, not a number, and its direction is the literal
placeholder in/out rather than one of in or out. -/
theorem claim4_placeholder_transfer :
    (∀ (e : String → Option JValue) (log : String) (data : TransactionData),
      e "从日志中解析" = none → strContains log "Transfer" = true →
      (parse_transfer_log e log data).token_transfers =
        data.token_transfers ++ [placeholderTransfer]) ∧
    dictLookup placeholderTransfer "direction" = some (JValue.jstr "in/out") ∧
    dictLookup placeholderTransfer "amount" = some (JValue.jstr "从日志中解析") := by
  refine ⟨?_, rfl, rfl⟩
  intro e log data hEn hC
  unfold parse_transfer_log parseTransferBody
  simp [hC, hEn]

/-- C4 witness: the amended statement applied to a concrete line. -/
theorem claim4_witness :
    (parse_transfer_log noEnrich "x Transfer y"
      { timestamp := "tw", signature := "sw", token_transfers := [],
        sol_transfer := 0 }).token_transfers =
      ({ timestamp := "tw", signature := "sw", token_transfers := [],
         sol_transfer := 0 } : TransactionData).token_transfers ++ [placeholderTransfer] :=
  claim4_placeholder_transfer.1 noEnrich "x Transfer y"
    { timestamp := "tw", signature := "sw", token_transfers := [], sol_transfer := 0 }
    rfl (by decide)

/-- C5: get_token_info never lets an error cross its boundary: a network
failure, a body decode failure, and any non-200 status all yield None; only
a 200 response with a decodable body yields its JSON value. -/
theorem claim5_enrichment_no_raise :
    (∀ m, get_token_info (HttpOutcome.netFailure m) = none) ∧
    (∀ st body, st ≠ 200 → get_token_info (HttpOutcome.response st body) = none) ∧
    (∀ m, get_token_info (HttpOutcome.response 200 (Except.error m)) = none) ∧
    (∀ j, get_token_info (HttpOutcome.response 200 (Except.ok j)) = some j) := by
  refine ⟨fun _ => rfl, ?_, fun _ => rfl, fun _ => rfl⟩
  intro st body h
  simp [get_token_info, h]

/-- C5 witness: a 404 response yields None. -/
theorem claim5_witness :
    get_token_info (HttpOutcome.response 404 (Except.ok (JValue.jnat 1))) = none :=
  claim5_enrichment_no_raise.2.1 404 (Except.ok (JValue.jnat 1)) (by decide)

/-- C6: when the enrichment lookup reports unknown, the parsed transfer is
still appended to the transfer list of its event, and it carries no symbol
and no price key. -/
theorem claim6_unknown_enrichment_included (e : String → Option JValue)
    (log : String) (data : TransactionData) :
    e "从日志中解析" = none → strContains log "Transfer" = true →
    ∃ tr, (parse_transfer_log e log data).token_transfers =
        data.token_transfers ++ [tr] ∧
      dictLookup tr "symbol" = none ∧ dictLookup tr "price" = none := by
  intro hEn hC
  refine ⟨placeholderTransfer, ?_, rfl, rfl⟩
  unfold parse_transfer_log parseTransferBody
  simp [hC, hEn]

/-- C6 witness: the statement applied to a concrete line with the
always-unknown enrichment oracle. -/
theorem claim6_witness :
    ∃ tr, (parse_transfer_log noEnrich "Transfer"
        { timestamp := "t6", signature := "s6", token_transfers := [],
          sol_transfer := 0 }).token_transfers =
      ({ timestamp := "t6", signature := "s6", token_transfers := [],
         sol_transfer := 0 } : TransactionData).token_transfers ++ [tr] ∧
      dictLookup tr "symbol" = none ∧ dictLookup tr "price" = none :=
  claim6_unknown_enrichment_included noEnrich "Transfer"
    { timestamp := "t6", signature := "s6", token_transfers := [], sol_transfer := 0 }
    rfl (by decide)

/-- C7: the Transfer Parser never raises past its boundary: when its body
errors (for example the update call on a truthy non-mapping enrichment
value), the line is skipped and transaction_data is returned unchanged; and
a fetched transaction with a block time and a log list is never failed by
line parsing — the analyzer returns an event whatever the lines and the
enrichment oracle do. -/
theorem claim7_parser_never_raises :
    (∀ (e : String → Option JValue) (log : String) (data : TransactionData) m,
      parseTransferBody e log data = Except.error m →
      parse_transfer_log e log data = data) ∧
    (∀ (e : String → Option JValue) (bt : Int) (logs : List String) (sig : String),
      (analyze_transaction e
        (FetchResult.fetched (some { block_time := some bt, log_messages := some logs }))
        sig).isSome = true) := by
  constructor
  · intro e log data m h
    unfold parse_transfer_log
    rw [h]
  · intro e bt logs sig
    rfl

/-- C7 witness: an enrichment oracle returning a truthy non-mapping makes
the body error, and the parser still returns the data unchanged. -/
theorem claim7_witness :
    parse_transfer_log strEnrich "Transfer"
      { timestamp := "t7", signature := "s7", token_transfers := [],
        sol_transfer := 0 } =
    { timestamp := "t7", signature := "s7", token_transfers := [],
      sol_transfer := 0 } :=
  claim7_parser_never_raises.1 strEnrich "Transfer"
    { timestamp := "t7", signature := "s7", token_transfers := [], sol_transfer := 0 }
    "TypeError: update needs a mapping" rfl

/-- C8: timestamp derivation is deterministic across runs: two analyzer
runs on transactions with the same block time — whatever their signatures,
log lines and enrichment oracles — produce events with the same timestamp
string, namely the fixed conversion of the block time. -/
theorem claim8_timestamp_deterministic
    (e1 e2 : String → Option JValue) (sig1 sig2 : String) (bt : Int)
    (logs1 logs2 : List String) (d1 d2 : TransactionData) :
    analyze_transaction e1
      (FetchResult.fetched (some { block_time := some bt, log_messages := some logs1 }))
      sig1 = some d1 →
    analyze_transaction e2
      (FetchResult.fetched (some { block_time := some bt, log_messages := some logs2 }))
      sig2 = some d2 →
    d1.timestamp = d2.timestamp ∧ d1.timestamp = formatTimestamp bt := by
  intro h1 h2
  simp only [analyze_transaction, Option.some.injEq] at h1 h2
  subst h1
  subst h2
  have f1 := (foldl_processLog_frame e1 logs1
    { timestamp := formatTimestamp bt, signature := sig1,
      token_transfers := [], sol_transfer := 0 }).1
  have f2 := (foldl_processLog_frame e2 logs2
    { timestamp := formatTimestamp bt, signature := sig2,
      token_transfers := [], sol_transfer := 0 }).1
  exact ⟨f1.trans f2.symm, f1⟩

/-- C8 witness: two concrete runs with block time zero but different
signatures, logs and enrichment yield the same timestamp. -/
theorem claim8_witness :
    ({ timestamp := formatTimestamp 0, signature := "a",
       token_transfers := [placeholderTransfer], sol_transfer := 0 } :
      TransactionData).timestamp =
      ({ timestamp := formatTimestamp 0, signature := "b",
         token_transfers := [], sol_transfer := 0 } : TransactionData).timestamp ∧
    ({ timestamp := formatTimestamp 0, signature := "a",
       token_transfers := [placeholderTransfer], sol_transfer := 0 } :
      TransactionData).timestamp = formatTimestamp 0 :=
  claim8_timestamp_deterministic noEnrich strEnrich "a" "b" 0 ["Transfer"] ["hello"]
    { timestamp := formatTimestamp 0, signature := "a",
      token_transfers := [placeholderTransfer], sol_transfer := 0 }
    { timestamp := formatTimestamp 0, signature := "b",
      token_transfers := [], sol_transfer := 0 }
    rfl rfl

/-- C10: every event the analyzer produces has sol_transfer zero — it is
initialized to zero and the per-line parsing step touches only
token_transfers, leaving timestamp, signature and sol_transfer unchanged. -/
theorem claim10_sol_transfer_zero :
    (∀ (e : String → Option JValue) (f : FetchResult) (sig : String)
       (d : TransactionData),
      analyze_transaction e f sig = some d → d.sol_transfer = 0) ∧
    (∀ (e : String → Option JValue) (log : String) (data : TransactionData),
      (parse_transfer_log e log data).timestamp = data.timestamp ∧
      (parse_transfer_log e log data).signature = data.signature ∧
      (parse_transfer_log e log data).sol_transfer = data.sol_transfer) := by
  constructor
  · intro e f sig d h
    cases f with
    | fetchError m => simp [analyze_transaction] at h
    | fetched tv =>
      cases tv with
      | none => simp [analyze_transaction] at h
      | some tv2 =>
        obtain ⟨bt, logs⟩ := tv2
        cases bt with
        | none => simp [analyze_transaction] at h
        | some bt2 =>
          cases logs with
          | none => simp [analyze_transaction] at h
          | some logs2 =>
            simp only [analyze_transaction, Option.some.injEq] at h
            subst h
            exact (foldl_processLog_frame e logs2
              { timestamp := formatTimestamp bt2, signature := sig,
                token_transfers := [], sol_transfer := 0 }).2.2
  · intro e log data
    exact parse_transfer_log_frame e log data

/-- C10 witness: the produced-event half applied to a concrete analysis. -/
theorem claim10_witness :
    ({ timestamp := formatTimestamp 0, signature := "a",
       token_transfers := [placeholderTransfer], sol_transfer := 0 } :
      TransactionData).sol_transfer = 0 :=
  claim10_sol_transfer_zero.1 noEnrich (oneTransferFetch "a") "a"
    { timestamp := formatTimestamp 0, signature := "a",
      token_transfers := [placeholderTransfer], sol_transfer := 0 } rfl

/-! Lemmas towards the serialization round trip: whitespace, digit runs,
escaped strings, and the head shape of serialized values. -/

/-- A whitespace character is not a digit. -/
theorem ws_not_dig {c : Char} (h : isWs c = true) : isDig c = false := by
  simp only [isWs, decide_eq_true_eq] at h
  rcases h with rfl | rfl <;> decide

/-- A digit character is no whitespace and none of the structural starters. -/
theorem dig_facts {c : Char} (h : isDig c = true) :
    isWs c = false ∧ c ≠ '"' ∧ c ≠ '[' ∧ c ≠ '\x7b' := by
  have h1 : c ≠ ' ' := by intro he; subst he; exact absurd h (by decide)
  have h2 : c ≠ '\n' := by intro he; subst he; exact absurd h (by decide)
  refine ⟨by simp [isWs, h1, h2], ?_, ?_, ?_⟩ <;>
    (intro he; subst he; exact absurd h (by decide))
/-- A digit character is none of the structural closers or separators. -/
theorem dig_facts2 {c : Char} (h : isDig c = true) :
    c ≠ ']' ∧ c ≠ '\x7d' ∧ c ≠ ',' := by
  refine ⟨?_, ?_, ?_⟩ <;> (intro he; subst he; exact absurd h (by decide))

/-- Skipping whitespace passes over a whitespace-only prefix. -/
theorem skipWs_ws_append (ws t : List Char) (h : wsOnly ws) :
    skipWs (ws ++ t) = skipWs t := by
  induction ws with
  | nil => rfl
  | cons c rest ih =>
    have hc : isWs c = true := h c (List.mem_cons_self c rest)
    have hrest : wsOnly rest := fun d hd => h d (List.mem_cons_of_mem c hd)
    simp [skipWs, hc, ih hrest]

/-- Skipping whitespace stops at a non-whitespace head. -/
theorem skipWs_not_ws {c : Char} (t : List Char) (h : isWs c = false) :
    skipWs (c :: t) = c :: t := by
  simp [skipWs, h]

/-- The newline-plus-indentation separator is whitespace only. -/
theorem wsOnly_nlInd (lvl : Nat) : wsOnly (nlInd lvl) := by
  intro c hc
  simp only [nlInd, List.mem_cons, List.mem_replicate] at hc
  rcases hc with rfl | ⟨_, rfl⟩ <;> decide

/-- A whitespace prefix keeps a list free of a leading digit. -/
theorem headNotDig_ws_append (ws t : List Char) (hws : wsOnly ws)
    (ht : headNotDig t) : headNotDig (ws ++ t) := by
  cases ws with
  | nil => exact ht
  | cons c rest =>
    exact ws_not_dig (hws c (List.mem_cons_self c rest))

/-- digitChar is a digit and carries its value. -/
theorem digitChar_spec (n : Nat) (h : n < 10) :
    isDig (digitChar n) = true ∧ digVal (digitChar n) = n := by
  interval_cases n <;> exact ⟨by decide, by decide⟩

/-- All characters of a digit rendering are digits. -/
theorem natDigitsAux_all_dig :
    ∀ (fuel n : Nat), n < fuel → ∀ c ∈ natDigitsAux fuel n, isDig c = true := by
  intro fuel
  induction fuel with
  | zero => intro n h; omega
  | succ f ih =>
    intro n h c hc
    by_cases h10 : n < 10
    · simp only [natDigitsAux, if_pos h10, List.mem_singleton] at hc
      subst hc
      exact (digitChar_spec n h10).1
    · have hdiv : n / 10 < n := Nat.div_lt_self (by omega) (by omega)
      simp only [natDigitsAux, if_neg h10, List.mem_append, List.mem_singleton] at hc
      rcases hc with hc1 | rfl
      · exact ih (n / 10) (by omega) c hc1
      · exact (digitChar_spec (n % 10) (Nat.mod_lt _ (by omega))).1

/-- A digit rendering is never empty. -/
theorem natDigitsAux_ne_nil (fuel n : Nat) (h : n < fuel) :
    natDigitsAux fuel n ≠ [] := by
  cases fuel with
  | zero => omega
  | succ f =>
    by_cases h10 : n < 10
    · simp [natDigitsAux, h10]
    · simp [natDigitsAux, h10]

/-- The rendered digits of a number, nonempty and digit-headed. -/
theorem natDigits_head (n : Nat) :
    ∃ c t, natDigits n = c :: t ∧ isDig c = true := by
  cases hd : natDigits n with
  | nil => exact absurd hd (natDigitsAux_ne_nil (n + 1) n (by omega))
  | cons c t =>
    refine ⟨c, t, rfl, ?_⟩
    exact natDigitsAux_all_dig (n + 1) n (by omega) c
      (by rw [show natDigitsAux (n + 1) n = natDigits n from rfl, hd]
          exact List.mem_cons_self c t)

/-- A digit run stops at a non-digit head. -/
theorem parseDigitsAux_stop (l : List Char) (acc : Nat) (h : headNotDig l) :
    parseDigitsAux l acc = (acc, l) := by
  cases l with
  | nil => rfl
  | cons c t =>
    simp only [headNotDig] at h
    simp [parseDigitsAux, h]

/-- Consuming a rendered digit run folds its value onto the accumulator. -/
theorem parseDigitsAux_run :
    ∀ (fuel n acc : Nat) (rest : List Char), n < fuel →
      parseDigitsAux (natDigitsAux fuel n ++ rest) acc =
        parseDigitsAux rest (acc * 10 ^ (natDigitsAux fuel n).length + n) := by
  intro fuel
  induction fuel with
  | zero => intro n acc rest h; omega
  | succ f ih =>
    intro n acc rest h
    by_cases h10 : n < 10
    · obtain ⟨hdig, hval⟩ := digitChar_spec n h10
      simp [natDigitsAux, h10, parseDigitsAux, hdig, hval]
    · have hdiv : n / 10 < n := Nat.div_lt_self (by omega) (by omega)
      obtain ⟨hdig, hval⟩ := digitChar_spec (n % 10) (Nat.mod_lt _ (by omega))
      have hlen : (natDigitsAux (f + 1) n).length =
          (natDigitsAux f (n / 10)).length + 1 := by
        simp [natDigitsAux, h10]
      simp only [natDigitsAux, if_neg h10, List.append_assoc, List.cons_append,
        List.nil_append]
      rw [ih (n / 10) acc (digitChar (n % 10) :: rest) (by omega)]
      simp only [parseDigitsAux, hdig, if_pos, hval]
      have harith : (acc * 10 ^ (natDigitsAux f (n / 10)).length + n / 10) * 10 +
          n % 10 = acc * 10 ^ ((natDigitsAux f (n / 10)).length + 1) + n := by
        have hdm : 10 * (n / 10) + n % 10 = n := Nat.div_add_mod n 10
        rw [pow_succ]
        ring_nf
        omega
      rw [harith, ← hlen]
      simp [natDigitsAux, h10]

/-- Parsing an escaped string body recovers it and stops at the closing
quote. -/
theorem parseStrAux_escape :
    ∀ (s rest : List Char), parseStrAux (escapeChars s ++ '"' :: rest) = some (s, rest) := by
  intro s
  induction s with
  | nil =>
    intro rest
    simp only [escapeChars, List.nil_append]
    rw [parseStrAux.eq_def]
    simp
  | cons c t ih =>
    intro rest
    by_cases hc : c = '"' ∨ c = '\\'
    · simp only [escapeChars, if_pos hc, List.cons_append]
      rw [show parseStrAux ('\\' :: c :: (escapeChars t ++ '"' :: rest)) =
          match parseStrAux (escapeChars t ++ '"' :: rest) with
          | some p => some (c :: p.1, p.2)
          | none => none from by rw [parseStrAux.eq_def]; simp]
      rw [ih rest]
    · push_neg at hc
      simp only [escapeChars, if_neg (by tauto : ¬(c = '"' ∨ c = '\\')), List.cons_append]
      rw [show parseStrAux (c :: (escapeChars t ++ '"' :: rest)) =
          match parseStrAux (escapeChars t ++ '"' :: rest) with
          | some p => some (c :: p.1, p.2)
          | none => none from by rw [parseStrAux.eq_def]; simp [hc.1, hc.2]]
      rw [ih rest]

/-- Every serialized value starts with a character that is not whitespace,
not a closer and not a separator. -/
theorem serVal_shape (lvl : Nat) (v : JValue) :
    ∃ c t, serVal lvl v = c :: t ∧ isWs c = false ∧
      c ≠ ']' ∧ c ≠ '\x7d' ∧ c ≠ ',' ∧ c ≠ ':' := by
  cases v with
  | jstr s =>
    refine ⟨'"', escapeChars s.data ++ ['"'], ?_, by decide, by decide, by decide,
      by decide, by decide⟩
    simp [serVal, serStr]
  | jnat n =>
    obtain ⟨c, t, hser, hdig⟩ := natDigits_head n
    have hne := dig_facts2 hdig
    have hcolon : c ≠ ':' := by intro he; subst he; exact absurd hdig (by decide)
    refine ⟨c, t, ?_, (dig_facts hdig).1, hne.1, hne.2.1, hne.2.2, hcolon⟩
    simp [serVal, hser]
  | jarr items =>
    cases items with
    | nil =>
      refine ⟨'[', [']'], ?_, by decide, by decide, by decide, by decide, by decide⟩
      simp [serVal]
    | cons x xs =>
      refine ⟨'[', nlInd (lvl + 1) ++ serVal (lvl + 1) x ++ serArrRest (lvl + 1) xs ++
        nlInd lvl ++ [']'], ?_, by decide, by decide, by decide, by decide, by decide⟩
      simp [serVal]
  | jobj kvs =>
    cases kvs with
    | nil =>
      refine ⟨'\x7b', ['\x7d'], ?_, by decide, by decide, by decide, by decide, by decide⟩
      simp [serVal]
    | cons kv kvs2 =>
      obtain ⟨k, v2⟩ := kv
      refine ⟨'\x7b', nlInd (lvl + 1) ++ serStr k ++ ':' :: ' ' :: serVal (lvl + 1) v2 ++
        serObjRest (lvl + 1) kvs2 ++ nlInd lvl ++ ['\x7d'], ?_, by decide, by decide,
        by decide, by decide, by decide⟩
      simp [serVal]

/-- Skipping whitespace over a whitespace prefix stops at a following
non-whitespace character. -/
theorem skipWs_ws_cons (ws t : List Char) (c : Char) (hws : wsOnly ws)
    (hc : isWs c = false) : skipWs (ws ++ c :: t) = c :: t := by
  rw [skipWs_ws_append ws _ hws]
  exact skipWs_not_ws t hc

/-- A serialized value is at least one character long. -/
theorem serVal_len_pos (lvl : Nat) (v : JValue) : 0 < (serVal lvl v).length := by
  obtain ⟨c, t, h, _⟩ := serVal_shape lvl v
  simp [h]

/-- One fuel step of the value parser, definitionally. -/
theorem parseVal_step (f : Nat) (i : List Char) :
    parseVal (f + 1) i =
      (match skipWs i with
       | [] => none
       | c :: rest =>
         if c = '"' then
           match parseStrAux rest with
           | some p => some (JValue.jstr (String.mk p.1), p.2)
           | none => none
         else if c = '[' then
           match skipWs rest with
           | [] => none
           | d :: r2 =>
             if d = ']' then some (JValue.jarr [], r2)
             else
               match parseArrItems f (d :: r2) with
               | some p => some (JValue.jarr p.1, p.2)
               | none => none
         else if c = '\x7b' then
           match skipWs rest with
           | [] => none
           | d :: r2 =>
             if d = '\x7d' then some (JValue.jobj [], r2)
             else
               match parseObjItems f (d :: r2) with
               | some p => some (JValue.jobj p.1, p.2)
               | none => none
         else if isDig c then
           let p := parseDigitsAux (c :: rest) 0
           some (JValue.jnat p.1, p.2)
         else none) := rfl

/-- One fuel step of the array item parser, definitionally. -/
theorem parseArrItems_step (f : Nat) (i : List Char) :
    parseArrItems (f + 1) i =
      (match parseVal f i with
       | none => none
       | some p =>
         match skipWs p.2 with
         | [] => none
         | d :: r2 =>
           if d = ',' then
             match parseArrItems f r2 with
             | some q => some (p.1 :: q.1, q.2)
             | none => none
           else if d = ']' then some ([p.1], r2)
           else none) := rfl

/-- One fuel step of the object member parser, definitionally. -/
theorem parseObjItems_step (f : Nat) (i : List Char) :
    parseObjItems (f + 1) i =
      (match skipWs i with
       | [] => none
       | c :: rest =>
         if c = '"' then
           match parseStrAux rest with
           | none => none
           | some kp =>
             match skipWs kp.2 with
             | [] => none
             | d :: r2 =>
               if d = ':' then
                 match parseVal f r2 with
                 | none => none
                 | some vp =>
                   match skipWs vp.2 with
                   | [] => none
                   | d2 :: r4 =>
                     if d2 = ',' then
                       match parseObjItems f r4 with
                       | some q => some ((String.mk kp.1, vp.1) :: q.1, q.2)
                       | none => none
                     else if d2 = '\x7d' then some ([(String.mk kp.1, vp.1)], r4)
                     else none
               else none
         else none) := rfl

/-- A list headed by a non-digit character is safe after a digit run. -/
theorem headNotDig_cons (c : Char) (t : List Char) (h : isDig c = false) :
    headNotDig (c :: t) := h

/-- Rebuilding a string from its characters gives it back. -/
theorem strMk_data (s : String) : String.mk s.data = s := rfl

/-- The value parser inverts the serializer on a string payload. -/
theorem parseVal_str (f : Nat) (s : String) (ws rest : List Char) (hws : wsOnly ws) :
    parseVal (f + 1) (ws ++ serStr s ++ rest) = some (JValue.jstr s, rest) := by
  have harg : ws ++ serStr s ++ rest =
      ws ++ '"' :: (escapeChars s.data ++ '"' :: rest) := by
    simp [serStr]
  rw [harg, parseVal_step, skipWs_ws_cons ws _ _ hws (by decide)]
  simp [parseStrAux_escape]

/-- The value parser inverts the serializer on a number payload. -/
theorem parseVal_nat (f n : Nat) (ws rest : List Char) (hws : wsOnly ws)
    (hrd : headNotDig rest) :
    parseVal (f + 1) (ws ++ natDigits n ++ rest) = some (JValue.jnat n, rest) := by
  obtain ⟨c, t, hser, hdig⟩ := natDigits_head n
  obtain ⟨hnw, hq, hbk, hbc⟩ := dig_facts hdig
  have harg : ws ++ natDigits n ++ rest = ws ++ c :: (t ++ rest) := by
    simp [hser]
  rw [harg, parseVal_step, skipWs_ws_cons ws _ _ hws hnw]
  have hback : c :: (t ++ rest) = natDigits n ++ rest := by simp [hser]
  simp only [hq, hbk, hbc, hdig, if_false, if_true, ite_false, ite_true, hback]
  rw [show natDigits n = natDigitsAux (n + 1) n from rfl,
    parseDigitsAux_run (n + 1) n 0 rest (by omega), parseDigitsAux_stop rest _ hrd]
  simp

/-- The value parser inverts the serializer on an empty array. -/
theorem parseVal_arrNil (f lvl : Nat) (ws rest : List Char) (hws : wsOnly ws) :
    parseVal (f + 1) (ws ++ serVal lvl (JValue.jarr []) ++ rest) =
      some (JValue.jarr [], rest) := by
  have harg : ws ++ serVal lvl (JValue.jarr []) ++ rest = ws ++ '[' :: (']' :: rest) := by
    simp [serVal]
  rw [harg, parseVal_step, skipWs_ws_cons ws _ _ hws (by decide)]
  simp [skipWs_not_ws rest (by decide : isWs ']' = false)]

/-- The value parser defers a nonempty array to the item parser. -/
theorem parseVal_arrCons (f lvl : Nat) (x : JValue) (xs : List JValue)
    (ws rest : List Char) (hws : wsOnly ws) :
    parseVal (f + 1) (ws ++ serVal lvl (JValue.jarr (x :: xs)) ++ rest) =
      (match parseArrItems f (serVal (lvl + 1) x ++ (serArrRest (lvl + 1) xs ++
          (nlInd lvl ++ (']' :: rest)))) with
       | some p => some (JValue.jarr p.1, p.2)
       | none => none) := by
  obtain ⟨c, t, hser, hnw, hnrb, hnrc, hncm, hnco⟩ := serVal_shape (lvl + 1) x
  rw [show ws ++ serVal lvl (JValue.jarr (x :: xs)) ++ rest =
      ws ++ '[' :: (nlInd (lvl + 1) ++ (c :: (t ++ (serArrRest (lvl + 1) xs ++
        (nlInd lvl ++ (']' :: rest)))))) from by simp [serVal, hser],
    parseVal_step, skipWs_ws_cons ws _ _ hws (by decide)]
  have hskip2 : skipWs (nlInd (lvl + 1) ++ (c :: (t ++ (serArrRest (lvl + 1) xs ++
      (nlInd lvl ++ (']' :: rest)))))) = c :: (t ++ (serArrRest (lvl + 1) xs ++
      (nlInd lvl ++ (']' :: rest)))) := skipWs_ws_cons _ _ _ (wsOnly_nlInd _) hnw
  have hback : c :: (t ++ (serArrRest (lvl + 1) xs ++ (nlInd lvl ++ (']' :: rest)))) =
      serVal (lvl + 1) x ++ (serArrRest (lvl + 1) xs ++ (nlInd lvl ++ (']' :: rest))) := by
    simp [hser]
  simp [hskip2, hnrb]
  rw [hback]

/-- The value parser inverts the serializer on an empty object. -/
theorem parseVal_objNil (f lvl : Nat) (ws rest : List Char) (hws : wsOnly ws) :
    parseVal (f + 1) (ws ++ serVal lvl (JValue.jobj []) ++ rest) =
      some (JValue.jobj [], rest) := by
  have harg : ws ++ serVal lvl (JValue.jobj []) ++ rest =
      ws ++ '\x7b' :: ('\x7d' :: rest) := by
    simp [serVal]
  rw [harg, parseVal_step, skipWs_ws_cons ws _ _ hws (by decide)]
  simp [skipWs_not_ws rest (by decide : isWs '\x7d' = false)]

/-- The value parser defers a nonempty object to the member parser. -/
theorem parseVal_objCons (f lvl : Nat) (k : String) (v : JValue)
    (kvs : List (String × JValue)) (ws rest : List Char) (hws : wsOnly ws) :
    parseVal (f + 1) (ws ++ serVal lvl (JValue.jobj ((k, v) :: kvs)) ++ rest) =
      (match parseObjItems f (serStr k ++ (':' :: (' ' :: (serVal (lvl + 1) v ++
          (serObjRest (lvl + 1) kvs ++ (nlInd lvl ++ ('\x7d' :: rest))))))) with
       | some p => some (JValue.jobj p.1, p.2)
       | none => none) := by
  rw [show ws ++ serVal lvl (JValue.jobj ((k, v) :: kvs)) ++ rest =
      ws ++ '\x7b' :: (nlInd (lvl + 1) ++ ('"' :: (escapeChars k.data ++
        ('"' :: (':' :: (' ' :: (serVal (lvl + 1) v ++ (serObjRest (lvl + 1) kvs ++
          (nlInd lvl ++ ('\x7d' :: rest)))))))))) from by simp [serVal, serStr],
    parseVal_step, skipWs_ws_cons ws _ _ hws (by decide)]
  have hskip2 : skipWs (nlInd (lvl + 1) ++ ('"' :: (escapeChars k.data ++
      ('"' :: (':' :: (' ' :: (serVal (lvl + 1) v ++ (serObjRest (lvl + 1) kvs ++
        (nlInd lvl ++ ('\x7d' :: rest)))))))))) = '"' :: (escapeChars k.data ++
      ('"' :: (':' :: (' ' :: (serVal (lvl + 1) v ++ (serObjRest (lvl + 1) kvs ++
        (nlInd lvl ++ ('\x7d' :: rest)))))))) :=
    skipWs_ws_cons _ _ _ (wsOnly_nlInd _) (by decide)
  have hback : ('"' : Char) :: (escapeChars k.data ++
      ('"' :: (':' :: (' ' :: (serVal (lvl + 1) v ++ (serObjRest (lvl + 1) kvs ++
        (nlInd lvl ++ ('\x7d' :: rest)))))))) =
      serStr k ++ (':' :: (' ' :: (serVal (lvl + 1) v ++ (serObjRest (lvl + 1) kvs ++
        (nlInd lvl ++ ('\x7d' :: rest)))))) := by
    simp [serStr]
  simp [hskip2]
  rw [hback]

mutual

/-- Parsing a serialized value after any whitespace recovers it and leaves
exactly the digit-free-headed remainder. -/
theorem rtVal : ∀ (v : JValue) (lvl fuel : Nat) (ws rest : List Char),
    wsOnly ws → headNotDig rest → (serVal lvl v).length < fuel →
    parseVal fuel (ws ++ serVal lvl v ++ rest) = some (v, rest)
  | JValue.jstr s, lvl, fuel, ws, rest, hws, hrd, hf => by
    cases fuel with
    | zero => exact absurd hf (by omega)
    | succ f =>
      rw [show serVal lvl (JValue.jstr s) = serStr s from by simp [serVal]]
      exact parseVal_str f s ws rest hws
  | JValue.jnat n, lvl, fuel, ws, rest, hws, hrd, hf => by
    cases fuel with
    | zero => exact absurd hf (by omega)
    | succ f =>
      rw [show serVal lvl (JValue.jnat n) = natDigits n from by simp [serVal]]
      exact parseVal_nat f n ws rest hws hrd
  | JValue.jarr [], lvl, fuel, ws, rest, hws, hrd, hf => by
    cases fuel with
    | zero => exact absurd hf (by omega)
    | succ f => exact parseVal_arrNil f lvl ws rest hws
  | JValue.jarr (x :: xs), lvl, fuel, ws, rest, hws, hrd, hf => by
    cases fuel with
    | zero => exact absurd hf (by omega)
    | succ f =>
      rw [parseVal_arrCons f lvl x xs ws rest hws]
      have hb : (serVal (lvl + 1) x).length + (serArrRest (lvl + 1) xs).length + 1 < f := by
        simp only [serVal, nlInd, List.length_cons, List.length_append,
          List.length_replicate] at hf
        omega
      have harr : parseArrItems f (serVal (lvl + 1) x ++ (serArrRest (lvl + 1) xs ++
          (nlInd lvl ++ (']' :: rest)))) = some (x :: xs, rest) := by
        have h0 := rtArr x xs (lvl + 1) f [] (nlInd lvl) rest
          (by intro c hc; cases hc) (wsOnly_nlInd lvl) hb
        simpa using h0
      rw [harr]
  | JValue.jobj [], lvl, fuel, ws, rest, hws, hrd, hf => by
    cases fuel with
    | zero => exact absurd hf (by omega)
    | succ f => exact parseVal_objNil f lvl ws rest hws
  | JValue.jobj ((k, v) :: kvs), lvl, fuel, ws, rest, hws, hrd, hf => by
    cases fuel with
    | zero => exact absurd hf (by omega)
    | succ f =>
      rw [parseVal_objCons f lvl k v kvs ws rest hws]
      have hb : (serStr k).length + (serVal (lvl + 1) v).length +
          (serObjRest (lvl + 1) kvs).length + 1 < f := by
        simp only [serVal, serStr, nlInd, List.length_cons, List.length_append,
          List.length_replicate] at hf ⊢
        omega
      have hobj : parseObjItems f (serStr k ++ (':' :: (' ' :: (serVal (lvl + 1) v ++
          (serObjRest (lvl + 1) kvs ++ (nlInd lvl ++ ('\x7d' :: rest))))))) =
          some ((k, v) :: kvs, rest) := by
        have h0 := rtObj k v kvs (lvl + 1) f [] (nlInd lvl) rest
          (by intro c hc; cases hc) (wsOnly_nlInd lvl) hb
        simpa using h0
      rw [hobj]
termination_by v _ _ _ _ _ _ _ => sizeOf v

/-- Parsing serialized array items after any whitespace recovers them up to
the closing bracket. -/
theorem rtArr : ∀ (x : JValue) (xs : List JValue) (lvl fuel : Nat)
    (ws1 ws2 rest : List Char),
    wsOnly ws1 → wsOnly ws2 →
    (serVal lvl x).length + (serArrRest lvl xs).length + 1 < fuel →
    parseArrItems fuel (ws1 ++ serVal lvl x ++ serArrRest lvl xs ++ ws2 ++
      (']' :: rest)) = some (x :: xs, rest)
  | x, [], lvl, fuel, ws1, ws2, rest, hws1, hws2, hf => by
    cases fuel with
    | zero => exact absurd hf (by omega)
    | succ f =>
      rw [parseArrItems_step,
        show ws1 ++ serVal lvl x ++ serArrRest lvl [] ++ ws2 ++ (']' :: rest) =
          ws1 ++ (serVal lvl x ++ (ws2 ++ (']' :: rest))) from by simp [serArrRest]]
      have hval : parseVal f (ws1 ++ (serVal lvl x ++ (ws2 ++ (']' :: rest)))) =
          some (x, ws2 ++ (']' :: rest)) := by
        have h0 := rtVal x lvl f ws1 (ws2 ++ (']' :: rest)) hws1
          (headNotDig_ws_append ws2 _ hws2 (headNotDig_cons _ _ (by decide)))
          (by omega)
        simpa using h0
      have hsk : skipWs (ws2 ++ (']' :: rest)) = ']' :: rest :=
        skipWs_ws_cons ws2 _ _ hws2 (by decide)
      simp [hval, hsk]
  | x, y :: ys, lvl, fuel, ws1, ws2, rest, hws1, hws2, hf => by
    cases fuel with
    | zero => exact absurd hf (by omega)
    | succ f =>
      rw [parseArrItems_step,
        show ws1 ++ serVal lvl x ++ serArrRest lvl (y :: ys) ++ ws2 ++ (']' :: rest) =
          ws1 ++ (serVal lvl x ++ (',' :: (nlInd lvl ++ (serVal lvl y ++
            (serArrRest lvl ys ++ (ws2 ++ (']' :: rest))))))) from by simp [serArrRest]]
      have hval : parseVal f (ws1 ++ (serVal lvl x ++ (',' :: (nlInd lvl ++
          (serVal lvl y ++ (serArrRest lvl ys ++ (ws2 ++ (']' :: rest)))))))) =
          some (x, ',' :: (nlInd lvl ++ (serVal lvl y ++ (serArrRest lvl ys ++
            (ws2 ++ (']' :: rest)))))) := by
        have h0 := rtVal x lvl f ws1 (',' :: (nlInd lvl ++ (serVal lvl y ++
          (serArrRest lvl ys ++ (ws2 ++ (']' :: rest)))))) hws1
          (headNotDig_cons _ _ (by decide)) (by omega)
        simpa using h0
      have hb : (serVal lvl y).length + (serArrRest lvl ys).length + 1 < f := by
        have hx := serVal_len_pos lvl x
        have hexp : (serArrRest lvl (y :: ys)).length =
            1 + (nlInd lvl).length + (serVal lvl y).length +
              (serArrRest lvl ys).length := by
          simp [serArrRest]
          omega
        omega
      have htail : parseArrItems f (nlInd lvl ++ (serVal lvl y ++
          (serArrRest lvl ys ++ (ws2 ++ (']' :: rest))))) =
          some (y :: ys, rest) := by
        have h0 := rtArr y ys lvl f (nlInd lvl) ws2 rest (wsOnly_nlInd lvl) hws2 hb
        simpa using h0
      have hsk : skipWs (',' :: (nlInd lvl ++ (serVal lvl y ++ (serArrRest lvl ys ++
          (ws2 ++ (']' :: rest)))))) = ',' :: (nlInd lvl ++ (serVal lvl y ++
          (serArrRest lvl ys ++ (ws2 ++ (']' :: rest))))) :=
        skipWs_not_ws _ (by decide)
      simp [hval, hsk, htail]
termination_by x xs _ _ _ _ _ _ _ _ => sizeOf x + sizeOf xs

/-- Parsing serialized object members after any whitespace recovers them up
to the closing brace. -/
theorem rtObj : ∀ (k : String) (v : JValue) (kvs : List (String × JValue))
    (lvl fuel : Nat) (ws1 ws2 rest : List Char),
    wsOnly ws1 → wsOnly ws2 →
    (serStr k).length + (serVal lvl v).length + (serObjRest lvl kvs).length + 1 < fuel →
    parseObjItems fuel (ws1 ++ serStr k ++ (':' :: (' ' :: (serVal lvl v ++
      (serObjRest lvl kvs ++ (ws2 ++ ('\x7d' :: rest))))))) = some ((k, v) :: kvs, rest)
  | k, v, [], lvl, fuel, ws1, ws2, rest, hws1, hws2, hf => by
    cases fuel with
    | zero => exact absurd hf (by omega)
    | succ f =>
      rw [parseObjItems_step,
        show ws1 ++ serStr k ++ (':' :: (' ' :: (serVal lvl v ++
            (serObjRest lvl [] ++ (ws2 ++ ('\x7d' :: rest)))))) =
          ws1 ++ ('"' :: (escapeChars k.data ++ ('"' :: (':' :: (' ' ::
            (serVal lvl v ++ (serObjRest lvl [] ++ (ws2 ++ ('\x7d' :: rest))))))))) from
          by simp [serStr],
        skipWs_ws_cons ws1 _ _ hws1 (by decide)]
      have hkey := parseStrAux_escape k.data (':' :: (' ' :: (serVal lvl v ++
        (serObjRest lvl [] ++ (ws2 ++ ('\x7d' :: rest))))))
      have hrd : headNotDig (serObjRest lvl [] ++ (ws2 ++ ('\x7d' :: rest))) := by
        rw [show serObjRest lvl [] ++ (ws2 ++ ('\x7d' :: rest)) =
            ws2 ++ ('\x7d' :: rest) from by simp [serObjRest]]
        exact headNotDig_ws_append ws2 _ hws2 (headNotDig_cons _ _ (by decide))
      have hval : parseVal f (' ' :: (serVal lvl v ++ (serObjRest lvl [] ++
          (ws2 ++ ('\x7d' :: rest))))) =
          some (v, serObjRest lvl [] ++ (ws2 ++ ('\x7d' :: rest))) := by
        have h0 := rtVal v lvl f [' '] (serObjRest lvl [] ++ (ws2 ++ ('\x7d' :: rest)))
          (by intro c hc; simp at hc; subst hc; rfl) hrd (by omega)
        simpa using h0
      have hsk : skipWs (serObjRest lvl [] ++ (ws2 ++ ('\x7d' :: rest))) =
          '\x7d' :: rest := by
        rw [show serObjRest lvl [] ++ (ws2 ++ ('\x7d' :: rest)) =
            ws2 ++ ('\x7d' :: rest) from by simp [serObjRest]]
        exact skipWs_ws_cons ws2 _ _ hws2 (by decide)
      simp [hkey, skipWs_not_ws _ (by decide : isWs ':' = false), hval, hsk, strMk_data]
  | k, v, (k2, v2) :: kvs2, lvl, fuel, ws1, ws2, rest, hws1, hws2, hf => by
    cases fuel with
    | zero => exact absurd hf (by omega)
    | succ f =>
      rw [parseObjItems_step,
        show ws1 ++ serStr k ++ (':' :: (' ' :: (serVal lvl v ++
            (serObjRest lvl ((k2, v2) :: kvs2) ++ (ws2 ++ ('\x7d' :: rest)))))) =
          ws1 ++ ('"' :: (escapeChars k.data ++ ('"' :: (':' :: (' ' ::
            (serVal lvl v ++ (serObjRest lvl ((k2, v2) :: kvs2) ++
              (ws2 ++ ('\x7d' :: rest))))))))) from by simp [serStr],
        skipWs_ws_cons ws1 _ _ hws1 (by decide)]
      have hkey := parseStrAux_escape k.data (':' :: (' ' :: (serVal lvl v ++
        (serObjRest lvl ((k2, v2) :: kvs2) ++ (ws2 ++ ('\x7d' :: rest))))))
      have hexpand : serObjRest lvl ((k2, v2) :: kvs2) ++ (ws2 ++ ('\x7d' :: rest)) =
          ',' :: (nlInd lvl ++ (serStr k2 ++ (':' :: (' ' :: (serVal lvl v2 ++
            (serObjRest lvl kvs2 ++ (ws2 ++ ('\x7d' :: rest)))))))) := by
        simp [serObjRest]
      have hrd : headNotDig (serObjRest lvl ((k2, v2) :: kvs2) ++
          (ws2 ++ ('\x7d' :: rest))) := by
        rw [hexpand]
        exact headNotDig_cons _ _ (by decide)
      have hval : parseVal f (' ' :: (serVal lvl v ++
          (serObjRest lvl ((k2, v2) :: kvs2) ++ (ws2 ++ ('\x7d' :: rest))))) =
          some (v, serObjRest lvl ((k2, v2) :: kvs2) ++ (ws2 ++ ('\x7d' :: rest))) := by
        have h0 := rtVal v lvl f [' ']
          (serObjRest lvl ((k2, v2) :: kvs2) ++ (ws2 ++ ('\x7d' :: rest)))
          (by intro c hc; simp at hc; subst hc; rfl) hrd (by omega)
        simpa using h0
      have hsk : skipWs (serObjRest lvl ((k2, v2) :: kvs2) ++
          (ws2 ++ ('\x7d' :: rest))) =
          ',' :: (nlInd lvl ++ (serStr k2 ++ (':' :: (' ' :: (serVal lvl v2 ++
            (serObjRest lvl kvs2 ++ (ws2 ++ ('\x7d' :: rest)))))))) := by
        rw [hexpand]
        exact skipWs_not_ws _ (by decide)
      have hb : (serStr k2).length + (serVal lvl v2).length +
          (serObjRest lvl kvs2).length + 1 < f := by
        have hnl : 0 < (nlInd lvl).length := by
          simp only [nlInd, List.length_cons, List.length_replicate]
          omega
        have hexp2 := congrArg List.length hexpand
        simp only [List.length_append, List.length_cons] at hexp2
        omega
      have htail : parseObjItems f (nlInd lvl ++ (serStr k2 ++ (':' :: (' ' ::
          (serVal lvl v2 ++ (serObjRest lvl kvs2 ++ (ws2 ++ ('\x7d' :: rest)))))))) =
          some ((k2, v2) :: kvs2, rest) := by
        have h0 := rtObj k2 v2 kvs2 lvl f (nlInd lvl) ws2 rest (wsOnly_nlInd lvl)
          hws2 hb
        simpa using h0
      simp [hkey, skipWs_not_ws _ (by decide : isWs ':' = false), hval, hsk, htail,
        strMk_data]
termination_by k v kvs _ _ _ _ _ _ _ _ => sizeOf v + sizeOf kvs

end

/-- Reading object-wrapped dicts back from a parsed array recovers them. -/
theorem asObjs_map (l : List (List (String × JValue))) :
    asObjs (l.map JValue.jobj) = some l := by
  induction l with
  | nil => rfl
  | cons d rest ih => simp [asObjs, ih]

/-- Decoding the JSON image of an event recovers its timestamp, signature
and transfer list. -/
theorem decodeEvent_eventToJson (d : TransactionData) :
    decodeEvent (eventToJson d) = some (d.timestamp, d.signature, d.token_transfers) := by
  simp [decodeEvent, eventToJson, dictLookup, asObjs_map]

/-- C9: serializing a TransactionEvent to the log format and re-parsing the
result as JSON reproduces the same signature, timestamp and transfer list. -/
theorem claim9_serialization_roundtrip (d : TransactionData) :
    (parseJson (serializeEvent d)).bind decodeEvent =
      some (d.timestamp, d.signature, d.token_transfers) := by
  have hp : parseVal ((serVal 0 (eventToJson d)).length + 1) (serVal 0 (eventToJson d)) =
      some (eventToJson d, []) := by
    have h0 := rtVal (eventToJson d) 0 ((serVal 0 (eventToJson d)).length + 1) [] []
      (by intro c hc; cases hc) trivial (by omega)
    simpa using h0
  have hjson : parseJson (serializeEvent d) = some (eventToJson d) := by
    simp only [parseJson, serializeEvent, String.length]
    rw [hp]
  rw [hjson]
  show decodeEvent (eventToJson d) = some (d.timestamp, d.signature, d.token_transfers)
  exact decodeEvent_eventToJson d

end Followorder
